import Mathlib

/-!
Verification development for the `ssrm_test` package: a sequential sample
ratio mismatch (SRM) test.  The repository ships the engine behind two entry
points, `sequential_p_values` and `sequential_posterior_probabilities`,
called from `src/notebooks/introduction.ipynb`.  The engine module itself is
not part of the available sources, so its definitions below are modelled
from the specification (each such definition says so in its doc comment);
the notebook's own reporting code (`sig_reached`) is translated directly
from the notebook.

Numbers are modelled with exact rationals.  The specification stores the
running statistic as a log-likelihood-ratio purely for floating-point
stability; the exact-rational embedding stores the likelihood ratio
`exp(ℓ_t)` itself, so `p_t = min(1, exp(-ℓ_t))` becomes
`p_t = min(1, 1 / LR_t)`.
-/

namespace SSRM

/-- Rising factorial `q (q+1) ⋯ (q+n-1)`; `rising q 0 = 1`.  With positive
integer-or-rational arguments this is the exact value of `Γ(q+n)/Γ(q)`, the
building block of the Dirichlet-multinomial marginal likelihood. -/
def rising (q : ℚ) : ℕ → ℚ
  | 0 => 1
  | n + 1 => rising q n * (q + n)

/-- Modelled from the spec (§7, Error Handling): the two error kinds raised
by the engine, `ConfigurationError` for a malformed `p0` and
`DataShapeError` for an observation row of the wrong shape. -/
inductive SSRMError where
  | configurationError
  | dataShapeError
deriving DecidableEq

/-- Modelled from the spec (§4.1, Simplex Validator): tolerance used when
checking that `p0` sums to 1 (the spec suggests `1e-8`). -/
def tol : ℚ := 1 / 100000000

/-- Modelled from the spec (§4.1, Simplex Validator): `p0` is well formed
when `d = len(p0) ≥ 2`, every entry is strictly between 0 and 1, and the
entries sum to 1 within tolerance `tol`. -/
def validP0 (p0 : List ℚ) : Bool :=
  decide (2 ≤ p0.length) &&
    p0.all (fun q => decide (0 < q) && decide (q < 1)) &&
    decide (|p0.sum - 1| ≤ tol)

/-- Modelled from the spec (§4.1, Simplex Validator): an observation row is
well formed when it has exactly `d` entries, all nonnegative. -/
def validRow (d : ℕ) (x : List ℤ) : Bool :=
  decide (x.length = d) && x.all (fun v => decide (0 ≤ v))

/-- Modelled from the spec (§3, Data Model): a validated observation row is
a vector of nonnegative counts; raw integer entries are converted after
validation has established nonnegativity. -/
def toCounts (x : List ℤ) : List ℕ := x.map Int.toNat

/-- Modelled from the spec (§3, Data Model): `TestState` holds the
cumulative per-category counts, the current time index, and the running
likelihood ratio `exp(ℓ_t)` (the spec's running log-likelihood-ratio,
stored exponentiated in this exact-rational embedding). -/
structure TestState where
  counts : List ℕ
  time : ℕ
  lrVal : ℚ
deriving DecidableEq

/-- Modelled from the spec (§4.2, Mixture Marginal-Likelihood Evaluator):
the likelihood ratio `exp(ℓ)` at cumulative counts `x`, i.e. the
Dirichlet-multinomial marginal likelihood (symmetric Dirichlet mixing with
concentration `tune` per category, the spec's scalar TuningParameter)
divided by the multinomial point likelihood at `p0`.  The multinomial
coefficients cancel, leaving
`(∏ᵢ rising tune xᵢ) / (rising (tune·d) n · ∏ᵢ p0ᵢ^xᵢ)` with `n = ∑ xᵢ`.
The spec's log-space evaluation is a floating-point stability measure; the
rational embedding evaluates the ratio exactly. -/
def likelihoodRatio (tune : ℚ) (p0 : List ℚ) (x : List ℕ) : ℚ :=
  (x.map (fun k => rising tune k)).prod /
    (rising (tune * p0.length) x.sum *
      (List.zipWith (fun p k => p ^ k) p0 x).prod)

/-- Modelled from the spec (§4.3, Accumulator): the `Initialized` state —
counts all zero, time index 0, likelihood ratio evaluated at the zero
counts. -/
def initState (d : ℕ) (lr : List ℕ → ℚ) : TestState :=
  { counts := List.replicate d 0, time := 0, lrVal := lr (List.replicate d 0) }

/-- Modelled from the spec (§4.3, Accumulator): `consume` adds the
observation's per-category counts to the cumulative totals, increments the
time index, and recomputes the running likelihood ratio from the cumulative
totals. -/
def consume (lr : List ℕ → ℚ) (s : TestState) (x : List ℕ) : TestState :=
  { counts := List.zipWith (· + ·) s.counts x
  , time := s.time + 1
  , lrVal := lr (List.zipWith (· + ·) s.counts x) }

/-- Modelled from the spec (§4.3/§4.6): feed the observation rows to the
accumulator one at a time, recording the state after each observation, in
observation order. -/
def runStates (lr : List ℕ → ℚ) (s : TestState) : List (List ℕ) → List TestState
  | [] => []
  | x :: xs => consume lr s x :: runStates lr (consume lr s x) xs

/-- Cumulative per-category totals of a list of count rows, starting from
`init` (elementwise sums). -/
def accumCounts (init : List ℕ) (rows : List (List ℕ)) : List ℕ :=
  rows.foldl (fun c x => List.zipWith (· + ·) c x) init

/-- Modelled from the spec (§4.4, Anytime-Valid P-value Mapper):
`p = min(1, exp(-ℓ)) = min(1, 1/LR)`. -/
def pValue (lrv : ℚ) : ℚ := min 1 (1 / lrv)

/-- Modelled from the spec (§4.5, Sequential Posterior Probability Mapper):
posterior probability of the alternative given prior null probability `pi0`
and Bayes factor `LR`: `(1-pi0)·LR / ((1-pi0)·LR + pi0)`. -/
def posterior (pi0 lrv : ℚ) : ℚ :=
  (1 - pi0) * lrv / ((1 - pi0) * lrv + pi0)

/-- Modelled from the spec (§6, External Interfaces): observations arrive
either as a 2-D matrix of counts (one row per time step) or as a 1-D
sequence of category indices interpreted as single-draw one-hot rows. -/
inductive ObsInput where
  | matrix (rows : List (List ℤ))
  | flat (idxs : List ℕ)

/-- One-hot row of length `d` with the 1 in position `i`. -/
def oneHot (d i : ℕ) : List ℤ :=
  (List.range d).map (fun k => if k = i then 1 else 0)

/-- Modelled from the spec (§6): normalise either input representation to a
matrix of rows; a 1-D sequence becomes one-hot rows of width `d`. -/
def toRows (d : ℕ) : ObsInput → List (List ℤ)
  | ObsInput.matrix rows => rows
  | ObsInput.flat idxs => idxs.map (oneHot d)

/-- Modelled from the spec (§2/§4): validate, then run the accumulator over
all rows; on a malformed `p0` fail with `ConfigurationError` before
anything is accumulated, on a malformed row fail with `DataShapeError`,
otherwise return the per-step states. -/
def runSSRM (tune : ℚ) (p0 : List ℚ) (input : ObsInput) :
    Except SSRMError (List TestState) :=
  if validP0 p0 then
    if (toRows p0.length input).all (validRow p0.length) then
      Except.ok (runStates (likelihoodRatio tune p0)
        (initState p0.length (likelihoodRatio tune p0))
        ((toRows p0.length input).map toCounts))
    else Except.error SSRMError.dataShapeError
  else Except.error SSRMError.configurationError

/-- Modelled from the spec (§6): `sequential_p_values(observations, p0,
tuning_parameter?)`; the default tuning value is unspecified in the
available material and is taken to be 1 (uniform Dirichlet mixing). -/
def sequential_p_values (input : ObsInput) (p0 : List ℚ) (tune : ℚ := 1) :
    Except SSRMError (List ℚ) :=
  (runSSRM tune p0 input).map (fun sts => sts.map (fun st => pValue st.lrVal))

/-- Modelled from the spec (§6): `sequential_posterior_probabilities(
observations, p0, tuning_parameter?, prior_null_probability?)`, with prior
null probability defaulting to 1/2. -/
def sequential_posterior_probabilities (input : ObsInput) (p0 : List ℚ)
    (tune : ℚ := 1) (pi0 : ℚ := 1/2) : Except SSRMError (List ℚ) :=
  (runSSRM tune p0 input).map
    (fun sts => sts.map (fun st => posterior pi0 st.lrVal))

/-- Translated from `src/notebooks/introduction.ipynb`:
`sig_reached = len([p for p in pvals if p > 0.05])` — the notebook reports
the rejection time as the number of p-values strictly above 0.05. -/
def sig_reached (pvals : List ℚ) : ℕ :=
  (pvals.filter (fun p => decide ((1 : ℚ)/20 < p))).length

/-- The first (0-based) index `t` with `p_t ≤ 0.05`, i.e. the length of the
longest initial segment of p-values strictly above 0.05; equals the list
length when no p-value ever reaches 0.05. -/
def firstCrossing (pvals : List ℚ) : ℕ :=
  (pvals.takeWhile (fun p => decide ((1 : ℚ)/20 < p))).length

/-- Modelled from the spec (§4.2, with the Dirichlet-multinomial mixing the
spec infers): the likelihood ratio as a function of per-category counts
`x : Fin d → ℕ`, with general positive Dirichlet concentration `a` and null
allocation `p0`.  This is the function-indexed counterpart of
`likelihoodRatio`, used for the statistical analysis of the process. -/
def dmLR {d : ℕ} (p0 a : Fin d → ℚ) (x : Fin d → ℕ) : ℚ :=
  (∏ i, rising (a i) (x i)) /
    (rising (∑ i, a i) (∑ i, x i) * ∏ i, p0 i ^ x i)

/-- The likelihood-ratio process along a stream of one-hot draws: the value
of `dmLR` at the category counts of the stream so far.  Under the null each
draw is a `Multinomial(1, p0)` category. -/
def LRproc {d : ℕ} (p0 a : Fin d → ℚ) (s : List (Fin d)) : ℚ :=
  dmLR p0 a (fun i => s.count i)

/-- Expectation, under i.i.d. category draws with probabilities `p0`, of
`f` evaluated at the prefix `u` extended by `n` further draws. -/
def expectOver {d : ℕ} (p0 : Fin d → ℚ) (f : List (Fin d) → ℚ) :
    ℕ → List (Fin d) → ℚ
  | 0, u => f u
  | n + 1, u => ∑ j, p0 j * expectOver p0 f n (u ++ [j])

/-- Probability, under `n` i.i.d. category draws with probabilities `p0`,
of the Boolean event `E` of the drawn stream. -/
def probOf {d : ℕ} (p0 : Fin d → ℚ) (n : ℕ) (E : List (Fin d) → Bool) : ℚ :=
  expectOver p0 (fun s => if E s then 1 else 0) n []

/-- The process `L` stopped at threshold `c`: starting from prefix `pre`
and consuming the remaining draws `rest`, return the value of `L` at the
first prefix where it reaches `c`, or at the full path if it never does. -/
def stopRun {d : ℕ} (c : ℚ) (L : List (Fin d) → ℚ) :
    List (Fin d) → List (Fin d) → ℚ
  | pre, [] => L pre
  | pre, j :: rest =>
      if c ≤ L pre then L pre else stopRun c L (pre ++ [j]) rest

/-- Event that the sequential p-value derived from the likelihood-ratio
process dips strictly below `alpha` at some time `t ≤ T` along the
stream `s`. -/
def dipsBelow {d : ℕ} (p0 a : Fin d → ℚ) (alpha : ℚ) (T : ℕ)
    (s : List (Fin d)) : Bool :=
  (List.range (T + 1)).any (fun t => decide (pValue (LRproc p0 a (s.take t)) < alpha))

/-! ### Basic lemmas about the likelihood-ratio process -/

theorem rising_pos {q : ℚ} (hq : 0 < q) : ∀ n, 0 < rising q n
  | 0 => one_pos
  | n + 1 => by
      have hn : (0 : ℚ) ≤ n := Nat.cast_nonneg n
      exact mul_pos (rising_pos hq n) (by linarith)

theorem count_concat {d : ℕ} (u : List (Fin d)) (j i : Fin d) :
    (u ++ [j]).count i = u.count i + if i = j then 1 else 0 := by
  by_cases h : i = j <;>
    simp [List.count_append, List.count_cons, List.count_nil, h, eq_comm]

theorem sum_count {d : ℕ} (u : List (Fin d)) :
    ∑ i, u.count i = u.length := by
  induction u with
  | nil => simp
  | cons x u ih =>
      simp only [List.count_cons, List.length_cons, beq_iff_eq]
      rw [Finset.sum_add_distrib, ih]
      simp [Finset.sum_ite_eq]

theorem dmLR_pos {d : ℕ} {p0 a : Fin d → ℚ} (hp : ∀ j, 0 < p0 j)
    (ha : ∀ j, 0 < a j) (hA : 0 < ∑ i, a i) (x : Fin d → ℕ) :
    0 < dmLR p0 a x := by
  unfold dmLR
  have h1 : 0 < ∏ i, rising (a i) (x i) :=
    Finset.prod_pos (fun i _ => rising_pos (ha i) _)
  have h2 : 0 < rising (∑ i, a i) (∑ i, x i) := rising_pos hA _
  have h3 : 0 < ∏ i, p0 i ^ x i :=
    Finset.prod_pos (fun i _ => pow_pos (hp i) _)
  exact div_pos h1 (mul_pos h2 h3)

theorem LRproc_nil {d : ℕ} (p0 a : Fin d → ℚ) : LRproc p0 a [] = 1 := by
  simp [LRproc, dmLR, rising]

theorem LRproc_concat {d : ℕ} {p0 a : Fin d → ℚ} (hp : ∀ j, 0 < p0 j)
    (hA : 0 < ∑ i, a i) (u : List (Fin d)) (j : Fin d) :
    LRproc p0 a (u ++ [j]) =
      LRproc p0 a u * ((a j + u.count j) / (((∑ i, a i) + u.length) * p0 j)) := by
  have hcnt : ∀ i, (u ++ [j]).count i = u.count i + if i = j then 1 else 0 :=
    fun i => count_concat u j i
  have hprod1 : (∏ i, rising (a i) ((u ++ [j]).count i)) =
      (a j + u.count j) * ∏ i, rising (a i) (u.count i) := by
    rw [Finset.prod_congr rfl (fun i _ => by rw [hcnt i]),
      ← Finset.mul_prod_erase Finset.univ
        (fun i => rising (a i) (u.count i + if i = j then 1 else 0))
        (Finset.mem_univ j),
      ← Finset.mul_prod_erase Finset.univ
        (fun i => rising (a i) (u.count i)) (Finset.mem_univ j)]
    have h2 : ∀ i ∈ Finset.univ.erase j,
        rising (a i) (u.count i + if i = j then 1 else 0) =
          rising (a i) (u.count i) := by
      intro i hi
      rcases Finset.mem_erase.mp hi with ⟨hne, _⟩
      simp [hne]
    rw [Finset.prod_congr rfl h2]
    have h1 : rising (a j) (u.count j + if j = j then 1 else 0) =
        rising (a j) (u.count j) * (a j + u.count j) := by
      simp [rising]
    rw [h1]
    ring
  have hprod2 : (∏ i, p0 i ^ ((u ++ [j]).count i)) =
      p0 j * ∏ i, p0 i ^ u.count i := by
    rw [Finset.prod_congr rfl (fun i _ => by rw [hcnt i]),
      ← Finset.mul_prod_erase Finset.univ
        (fun i => p0 i ^ (u.count i + if i = j then 1 else 0))
        (Finset.mem_univ j),
      ← Finset.mul_prod_erase Finset.univ
        (fun i => p0 i ^ u.count i) (Finset.mem_univ j)]
    have h2 : ∀ i ∈ Finset.univ.erase j,
        p0 i ^ (u.count i + if i = j then 1 else 0) = p0 i ^ u.count i := by
      intro i hi
      rcases Finset.mem_erase.mp hi with ⟨hne, _⟩
      simp [hne]
    rw [Finset.prod_congr rfl h2]
    have h1 : p0 j ^ (u.count j + if j = j then 1 else 0) =
        p0 j ^ u.count j * p0 j := by
      simp [pow_succ]
    rw [h1]
    ring
  have hsum2 : (∑ i, (u ++ [j]).count i) = u.length + 1 := by
    rw [sum_count]
    simp
  simp only [LRproc, dmLR]
  rw [hprod1, hprod2, hsum2, sum_count]
  have hstep : rising (∑ i, a i) (u.length + 1) =
      rising (∑ i, a i) u.length * ((∑ i, a i) + u.length) := rfl
  rw [hstep]
  have hrne : rising (∑ i, a i) u.length ≠ 0 := ne_of_gt (rising_pos hA _)
  have hpne : p0 j ≠ 0 := ne_of_gt (hp j)
  have hPne : (∏ i, p0 i ^ u.count i) ≠ 0 :=
    ne_of_gt (Finset.prod_pos (fun i _ => pow_pos (hp i) _))
  have hAl : ((∑ i, a i) + (u.length : ℚ)) ≠ 0 := by
    have : (0 : ℚ) ≤ u.length := Nat.cast_nonneg _
    linarith
  field_simp
  ring

theorem LRproc_step {d : ℕ} {p0 a : Fin d → ℚ} (hp : ∀ j, 0 < p0 j)
    (hA : 0 < ∑ i, a i) (u : List (Fin d)) :
    ∑ j, p0 j * LRproc p0 a (u ++ [j]) = LRproc p0 a u := by
  have hAl : (0 : ℚ) < (∑ i, a i) + u.length := by
    have : (0 : ℚ) ≤ u.length := Nat.cast_nonneg _
    linarith
  have hterm : ∀ j, p0 j * LRproc p0 a (u ++ [j]) =
      LRproc p0 a u * ((a j + u.count j) / ((∑ i, a i) + u.length)) := by
    intro j
    rw [LRproc_concat hp hA u j]
    have hpne : p0 j ≠ 0 := ne_of_gt (hp j)
    field_simp
    ring
  rw [Finset.sum_congr rfl (fun j _ => hterm j), ← Finset.mul_sum,
    ← Finset.sum_div]
  have hnum : (∑ j, (a j + (u.count j : ℚ))) = (∑ i, a i) + u.length := by
    rw [Finset.sum_add_distrib]
    congr 1
    rw [← Nat.cast_sum, sum_count]
  rw [hnum, div_self (ne_of_gt hAl), mul_one]

/-! ### Expectation lemmas -/

theorem expectOver_const_of_step {d : ℕ} {p0 : Fin d → ℚ}
    {g : List (Fin d) → ℚ}
    (hstep : ∀ u, ∑ j, p0 j * g (u ++ [j]) = g u) :
    ∀ n u, expectOver p0 g n u = g u := by
  intro n
  induction n with
  | zero => intro u; rfl
  | succ n ih =>
      intro u
      show (∑ j, p0 j * expectOver p0 g n (u ++ [j])) = g u
      rw [Finset.sum_congr rfl (fun j _ => by rw [ih (u ++ [j])])]
      exact hstep u

theorem expectOver_mono {d : ℕ} {p0 : Fin d → ℚ} {f g : List (Fin d) → ℚ}
    (hp0 : ∀ j, 0 ≤ p0 j) (hfg : ∀ s, f s ≤ g s) :
    ∀ n u, expectOver p0 f n u ≤ expectOver p0 g n u := by
  intro n
  induction n with
  | zero => intro u; exact hfg u
  | succ n ih =>
      intro u
      refine Finset.sum_le_sum (fun j _ => ?_)
      exact mul_le_mul_of_nonneg_left (ih (u ++ [j])) (hp0 j)

theorem expectOver_mul_const {d : ℕ} (p0 : Fin d → ℚ) (f : List (Fin d) → ℚ)
    (k : ℚ) : ∀ n u,
    expectOver p0 (fun s => f s * k) n u = expectOver p0 f n u * k := by
  intro n
  induction n with
  | zero => intro u; rfl
  | succ n ih =>
      intro u
      show (∑ j, p0 j * expectOver p0 (fun s => f s * k) n (u ++ [j])) = _
      rw [Finset.sum_congr rfl (fun j _ => by rw [ih (u ++ [j])])]
      show (∑ j, p0 j * (expectOver p0 f n (u ++ [j]) * k)) = _
      rw [show (expectOver p0 f (n + 1) u) =
        (∑ j, p0 j * expectOver p0 f n (u ++ [j])) from rfl, Finset.sum_mul]
      exact Finset.sum_congr rfl (fun j _ => by ring)

/-! ### The stopped process and Ville's inequality (finite horizon) -/

theorem stopRun_one_step {d : ℕ} {p0 : Fin d → ℚ} {c : ℚ}
    {L : List (Fin d) → ℚ} (hsum : ∑ j, p0 j = 1)
    (hstep : ∀ u, ∑ j, p0 j * L (u ++ [j]) = L u) :
    ∀ rest pre, ∑ j, p0 j * stopRun c L pre (rest ++ [j]) =
      stopRun c L pre rest := by
  intro rest
  induction rest with
  | nil =>
      intro pre
      by_cases h : c ≤ L pre
      · calc (∑ j, p0 j * stopRun c L pre ([] ++ [j]))
            = ∑ j, p0 j * L pre := by
              refine Finset.sum_congr rfl (fun j _ => ?_)
              simp only [List.nil_append, stopRun, if_pos h]
          _ = (∑ j, p0 j) * L pre := by rw [Finset.sum_mul]
          _ = stopRun c L pre [] := by rw [hsum, one_mul]; rfl
      · calc (∑ j, p0 j * stopRun c L pre ([] ++ [j]))
            = ∑ j, p0 j * L (pre ++ [j]) := by
              refine Finset.sum_congr rfl (fun j _ => ?_)
              simp only [List.nil_append, stopRun, if_neg h]
          _ = L pre := hstep pre
          _ = stopRun c L pre [] := rfl
  | cons k rest ih =>
      intro pre
      by_cases h : c ≤ L pre
      · calc (∑ j, p0 j * stopRun c L pre ((k :: rest) ++ [j]))
            = ∑ j, p0 j * L pre := by
              refine Finset.sum_congr rfl (fun j _ => ?_)
              simp only [List.cons_append, stopRun, if_pos h]
          _ = (∑ j, p0 j) * L pre := by rw [Finset.sum_mul]
          _ = stopRun c L pre (k :: rest) := by
              rw [hsum, one_mul]
              simp only [stopRun, if_pos h]
      · calc (∑ j, p0 j * stopRun c L pre ((k :: rest) ++ [j]))
            = ∑ j, p0 j * stopRun c L (pre ++ [k]) (rest ++ [j]) := by
              refine Finset.sum_congr rfl (fun j _ => ?_)
              simp only [List.cons_append, stopRun, if_neg h]
              rfl
          _ = stopRun c L (pre ++ [k]) rest := ih (pre ++ [k])
          _ = stopRun c L pre (k :: rest) := by
              simp only [stopRun, if_neg h]

theorem stopRun_nonneg {d : ℕ} {c : ℚ} {L : List (Fin d) → ℚ}
    (hL : ∀ s, 0 ≤ L s) :
    ∀ rest pre, 0 ≤ stopRun c L pre rest := by
  intro rest
  induction rest with
  | nil => intro pre; exact hL pre
  | cons k rest ih =>
      intro pre
      by_cases h : c ≤ L pre
      · simp only [stopRun, if_pos h]; exact hL pre
      · simp only [stopRun, if_neg h]; exact ih (pre ++ [k])

theorem stopRun_ge_of_cross {d : ℕ} {c : ℚ} {L : List (Fin d) → ℚ} :
    ∀ rest pre, (∃ t, c ≤ L (pre ++ rest.take t)) →
      c ≤ stopRun c L pre rest := by
  intro rest
  induction rest with
  | nil =>
      intro pre hcross
      obtain ⟨t, ht⟩ := hcross
      simpa using ht
  | cons k rest ih =>
      intro pre hcross
      by_cases h : c ≤ L pre
      · simp only [stopRun, if_pos h]; exact h
      · simp only [stopRun, if_neg h]
        obtain ⟨t, ht⟩ := hcross
        cases t with
        | zero => simp at ht; exact absurd ht h
        | succ t =>
            refine ih (pre ++ [k]) ⟨t, ?_⟩
            rw [List.append_assoc]
            simpa using ht

theorem ville {d : ℕ} {p0 : Fin d → ℚ} {c : ℚ} {L : List (Fin d) → ℚ}
    (hc : 0 < c) (hp0 : ∀ j, 0 ≤ p0 j) (hsum : ∑ j, p0 j = 1)
    (hL0 : L [] = 1) (hLpos : ∀ s, 0 ≤ L s)
    (hstep : ∀ u, ∑ j, p0 j * L (u ++ [j]) = L u) (T : ℕ) :
    probOf p0 T
      (fun s => (List.range (T + 1)).any
        (fun t => decide (c ≤ L (s.take t)))) ≤ 1 / c := by
  set E : List (Fin d) → Bool :=
    fun s => (List.range (T + 1)).any (fun t => decide (c ≤ L (s.take t)))
  have hbound : ∀ s, (if E s then (1 : ℚ) else 0) ≤
      stopRun c L [] s * (1 / c) := by
    intro s
    by_cases h : E s
    · rw [if_pos h]
      have hcross : ∃ t, c ≤ L (s.take t) := by
        obtain ⟨t, _, ht⟩ := List.any_eq_true.mp h
        exact ⟨t, of_decide_eq_true ht⟩
      have hge : c ≤ stopRun c L [] s := by
        refine stopRun_ge_of_cross s [] ?_
        obtain ⟨t, ht⟩ := hcross
        exact ⟨t, by simpa using ht⟩
      rw [mul_one_div, le_div_iff₀ hc, one_mul]
      exact hge
    · rw [if_neg h]
      exact mul_nonneg (stopRun_nonneg hLpos s []) (by positivity)
  have h1 : probOf p0 T E ≤
      expectOver p0 (fun s => stopRun c L [] s * (1 / c)) T [] :=
    expectOver_mono hp0 hbound T []
  rw [expectOver_mul_const] at h1
  have h2 : expectOver p0 (fun s => stopRun c L [] s) T [] = 1 := by
    rw [expectOver_const_of_step
      (fun u => stopRun_one_step hsum hstep u []) T []]
    show L [] = 1
    exact hL0
  rw [h2, one_mul] at h1
  exact h1

theorem probOf_mono {d : ℕ} {p0 : Fin d → ℚ} (hp0 : ∀ j, 0 ≤ p0 j)
    {E F : List (Fin d) → Bool} (h : ∀ s, E s = true → F s = true) (n : ℕ) :
    probOf p0 n E ≤ probOf p0 n F := by
  refine expectOver_mono hp0 (fun s => ?_) n []
  by_cases hE : E s
  · rw [if_pos hE, if_pos (h s hE)]
  · rw [if_neg hE]
    by_cases hF : F s
    · rw [if_pos hF]; exact zero_le_one
    · rw [if_neg hF]

theorem pValue_lt_imp {x alpha : ℚ} (hx : 0 < x) (ha0 : 0 < alpha)
    (ha1 : alpha < 1) (h : pValue x < alpha) : 1 / alpha ≤ x := by
  unfold pValue at h
  by_cases h1 : (1 : ℚ) ≤ 1 / x
  · rw [min_eq_left h1] at h
    linarith
  · push_neg at h1
    rw [min_eq_right (le_of_lt h1)] at h
    have h2 : 1 < alpha * x := by
      rw [div_lt_iff₀ hx] at h
      linarith [h]
    rw [div_le_iff₀ ha0]
    linarith [h2]

/-! ### Engine plumbing lemmas -/

theorem runStates_length (lr : List ℕ → ℚ) :
    ∀ (rows : List (List ℕ)) (s : TestState),
      (runStates lr s rows).length = rows.length := by
  intro rows
  induction rows with
  | nil => intro s; rfl
  | cons x xs ih =>
      intro s
      simp [runStates, ih]

theorem runStates_get? (lr : List ℕ → ℚ) :
    ∀ (rows : List (List ℕ)) (s : TestState) (t : ℕ), t < rows.length →
      (runStates lr s rows)[t]? =
        some (List.foldl (consume lr) s (rows.take (t + 1))) := by
  intro rows
  induction rows with
  | nil => intro s t ht; exact absurd ht (by simp)
  | cons x xs ih =>
      intro s t ht
      cases t with
      | zero => simp [runStates]
      | succ t =>
          have ht' : t < xs.length := by simpa using ht
          simp only [runStates, List.getElem?_cons_succ, List.take_succ_cons,
            List.foldl_cons]
          exact ih (consume lr s x) t ht'

theorem foldl_consume_counts (lr : List ℕ → ℚ) :
    ∀ (l : List (List ℕ)) (s : TestState),
      (List.foldl (consume lr) s l).counts = accumCounts s.counts l := by
  intro l
  induction l with
  | nil => intro s; rfl
  | cons x xs ih =>
      intro s
      simp only [List.foldl_cons, ih (consume lr s x)]
      rfl

theorem foldl_consume_lrVal (lr : List ℕ → ℚ) :
    ∀ (l : List (List ℕ)) (s : TestState), l ≠ [] →
      (List.foldl (consume lr) s l).lrVal = lr (accumCounts s.counts l) := by
  intro l
  induction l with
  | nil => intro s h; exact absurd rfl h
  | cons x xs ih =>
      intro s _
      cases xs with
      | nil => rfl
      | cons y ys =>
          rw [List.foldl_cons, ih (consume lr s x) (by simp)]
          rfl

theorem runStates_append (lr : List ℕ → ℚ) :
    ∀ (xs ys : List (List ℕ)) (s : TestState),
      runStates lr s (xs ++ ys) =
        runStates lr s xs ++ runStates lr (List.foldl (consume lr) s xs) ys := by
  intro xs
  induction xs with
  | nil => intro ys s; rfl
  | cons x xs ih =>
      intro ys s
      simp only [List.cons_append, runStates, List.foldl_cons, List.append_eq, ih]

theorem take_map_ne_nil {α β : Type} (f : α → β) (rows : List α) (t : ℕ)
    (ht : t < rows.length) : (rows.map f).take (t + 1) ≠ [] := by
  apply List.ne_nil_of_length_pos
  rw [List.length_take, List.length_map]
  omega

theorem validP0_props {p0 : List ℚ} (h : validP0 p0 = true) :
    2 ≤ p0.length ∧ (∀ q ∈ p0, 0 < q ∧ q < 1) ∧ |p0.sum - 1| ≤ tol := by
  simp only [validP0, Bool.and_eq_true, List.all_eq_true,
    decide_eq_true_eq] at h
  exact ⟨h.1.1, h.1.2, h.2⟩

theorem validRow_iff {d : ℕ} {x : List ℤ} :
    validRow d x = true ↔ x.length = d ∧ ∀ v ∈ x, 0 ≤ v := by
  simp [validRow, List.all_eq_true]

theorem zip_pow_prod_pos :
    ∀ (p0 : List ℚ) (x : List ℕ), (∀ q ∈ p0, 0 < q) →
      0 < (List.zipWith (fun p k => p ^ k) p0 x).prod := by
  intro p0
  induction p0 with
  | nil => intro x _; simp
  | cons p ps ih =>
      intro x hq
      cases x with
      | nil => simp
      | cons k ks =>
          simp only [List.zipWith_cons_cons, List.prod_cons]
          exact mul_pos (pow_pos (hq p (by simp)) k)
            (ih ks (fun q hmem => hq q (by simp [hmem])))

theorem likelihoodRatio_pos {tune : ℚ} {p0 : List ℚ} (x : List ℕ)
    (htune : 0 < tune) (hq : ∀ q ∈ p0, 0 < q) (hd : 0 < p0.length) :
    0 < likelihoodRatio tune p0 x := by
  unfold likelihoodRatio
  refine div_pos ?_ (mul_pos ?_ (zip_pow_prod_pos p0 x hq))
  · refine List.prod_pos (fun y hy => ?_)
    obtain ⟨k, _, rfl⟩ := List.mem_map.mp hy
    exact rising_pos htune k
  · refine rising_pos ?_ _
    have : (0 : ℚ) < p0.length := by exact_mod_cast hd
    positivity

theorem mem_runStates (lr : List ℕ → ℚ) :
    ∀ (rows : List (List ℕ)) (s : TestState) (st : TestState),
      st ∈ runStates lr s rows →
        ∃ t, t < rows.length ∧
          st = List.foldl (consume lr) s (rows.take (t + 1)) := by
  intro rows
  induction rows with
  | nil => intro s st h; exact absurd h (by simp [runStates])
  | cons x xs ih =>
      intro s st h
      rcases List.mem_cons.mp h with h0 | h1
      · exact ⟨0, by simp, by simpa using h0⟩
      · obtain ⟨t, ht, hst⟩ := ih (consume lr s x) st h1
        exact ⟨t + 1, by simpa using ht, by simpa using hst⟩

theorem pValue_bounds {lrv : ℚ} (h : 0 ≤ lrv) :
    0 ≤ pValue lrv ∧ pValue lrv ≤ 1 := by
  unfold pValue
  constructor
  · exact le_min zero_le_one (by positivity)
  · exact min_le_left 1 _

theorem posterior_bounds {pi0 lrv : ℚ} (hpi0 : 0 < pi0) (hpi1 : pi0 < 1)
    (h : 0 ≤ lrv) : 0 ≤ posterior pi0 lrv ∧ posterior pi0 lrv ≤ 1 := by
  unfold posterior
  have hnum : 0 ≤ (1 - pi0) * lrv := mul_nonneg (by linarith) h
  have hden : 0 < (1 - pi0) * lrv + pi0 := by linarith
  constructor
  · exact div_nonneg hnum (le_of_lt hden)
  · rw [div_le_one hden]
    linarith

/-! ### Claim theorems -/

/-- Claim C1 (anytime validity): under i.i.d. one-hot draws from the null
allocation `p0`, the likelihood-ratio process `LRproc` (the `exp(ℓ_t)` of
the spec, built from the Dirichlet-multinomial mixture with positive
concentration `a`) is strictly positive, starts at 1, is a martingale
(`∑ⱼ p0ⱼ·LR(u++[j]) = LR(u)`), has expectation 1 at every horizon, and —
by Ville's maximal inequality — for every `alpha ∈ (0,1)` and every finite
horizon `T` the null probability that the sequential p-value
`min(1, 1/LR_t)` ever dips below `alpha` at some `t ≤ T` is at most
`alpha`. -/
theorem c1_anytime_validity {d : ℕ} (p0 a : Fin d → ℚ) (alpha : ℚ)
    (hp : ∀ j, 0 < p0 j) (hsum : ∑ j, p0 j = 1) (ha : ∀ j, 0 < a j)
    (ha0 : 0 < alpha) (ha1 : alpha < 1) :
    (∀ s, 0 < LRproc p0 a s) ∧
    LRproc p0 a [] = 1 ∧
    (∀ u, ∑ j, p0 j * LRproc p0 a (u ++ [j]) = LRproc p0 a u) ∧
    (∀ T, expectOver p0 (LRproc p0 a) T [] = 1) ∧
    (∀ T, probOf p0 T (dipsBelow p0 a alpha T) ≤ alpha) := by
  have hd : 0 < d := by
    rcases Nat.eq_zero_or_pos d with h0 | h0
    · subst h0
      simp at hsum
    · exact h0
  have hne : Nonempty (Fin d) := ⟨⟨0, hd⟩⟩
  have hA : 0 < ∑ i, a i :=
    Finset.sum_pos (fun i _ => ha i) Finset.univ_nonempty
  have hpos : ∀ s, 0 < LRproc p0 a s := fun s => dmLR_pos hp ha hA _
  have hstep : ∀ u, ∑ j, p0 j * LRproc p0 a (u ++ [j]) = LRproc p0 a u :=
    fun u => LRproc_step hp hA u
  refine ⟨hpos, LRproc_nil p0 a, hstep, ?_, ?_⟩
  · intro T
    rw [expectOver_const_of_step hstep T []]
    exact LRproc_nil p0 a
  · intro T
    have hc : (0 : ℚ) < 1 / alpha := by positivity
    have himp : ∀ s, dipsBelow p0 a alpha T s = true →
        ((List.range (T + 1)).any
          (fun t => decide (1 / alpha ≤ LRproc p0 a (s.take t)))) = true := by
      intro s hs
      obtain ⟨t, htmem, ht⟩ := List.any_eq_true.mp hs
      refine List.any_eq_true.mpr ⟨t, htmem, decide_eq_true ?_⟩
      exact pValue_lt_imp (hpos (s.take t)) ha0 ha1 (of_decide_eq_true ht)
    have h1 : probOf p0 T (dipsBelow p0 a alpha T) ≤
        probOf p0 T (fun s => (List.range (T + 1)).any
          (fun t => decide (1 / alpha ≤ LRproc p0 a (s.take t)))) :=
      probOf_mono (fun j => le_of_lt (hp j)) himp T
    have h2 := ville hc (fun j => le_of_lt (hp j)) hsum (LRproc_nil p0 a)
      (fun s => le_of_lt (hpos s)) hstep T
    rw [one_div_one_div] at h2
    exact le_trans h1 h2

/-- Witness for C1 at the concrete instance `d = 2`, uniform null
`p0 = (1/2, 1/2)`, unit Dirichlet concentration, `alpha = 1/2`. -/
theorem c1_anytime_validity_witness :
    ((∀ j : Fin 2, 0 < (fun _ : Fin 2 => (1 : ℚ)/2) j) ∧
      (∑ j : Fin 2, (fun _ : Fin 2 => (1 : ℚ)/2) j) = 1 ∧
      (∀ j : Fin 2, 0 < (fun _ : Fin 2 => (1 : ℚ)) j) ∧
      (0 : ℚ) < 1/2 ∧ (1 : ℚ)/2 < 1) ∧
    ((∀ s, 0 < LRproc (fun _ : Fin 2 => (1 : ℚ)/2) (fun _ : Fin 2 => (1 : ℚ)) s) ∧
      LRproc (fun _ : Fin 2 => (1 : ℚ)/2) (fun _ : Fin 2 => (1 : ℚ)) [] = 1 ∧
      (∀ u, ∑ j, (fun _ : Fin 2 => (1 : ℚ)/2) j *
          LRproc (fun _ : Fin 2 => (1 : ℚ)/2) (fun _ : Fin 2 => (1 : ℚ)) (u ++ [j]) =
        LRproc (fun _ : Fin 2 => (1 : ℚ)/2) (fun _ : Fin 2 => (1 : ℚ)) u) ∧
      (∀ T, expectOver (fun _ : Fin 2 => (1 : ℚ)/2)
        (LRproc (fun _ : Fin 2 => (1 : ℚ)/2) (fun _ : Fin 2 => (1 : ℚ))) T [] = 1) ∧
      (∀ T, probOf (fun _ : Fin 2 => (1 : ℚ)/2) T
        (dipsBelow (fun _ : Fin 2 => (1 : ℚ)/2) (fun _ : Fin 2 => (1 : ℚ))
          (1/2) T) ≤ 1/2)) := by
  have hp : ∀ j : Fin 2, 0 < (fun _ : Fin 2 => (1 : ℚ)/2) j := by
    intro j
    norm_num
  have hsum : (∑ j : Fin 2, (fun _ : Fin 2 => (1 : ℚ)/2) j) = 1 := by
    simp [Fin.sum_univ_two]
  have ha : ∀ j : Fin 2, 0 < (fun _ : Fin 2 => (1 : ℚ)) j := by
    intro j
    norm_num
  have h1 : (0 : ℚ) < 1/2 := by norm_num
  have h2 : (1 : ℚ)/2 < 1 := by norm_num
  exact ⟨⟨hp, hsum, ha, h1, h2⟩,
    c1_anytime_validity (fun _ : Fin 2 => (1 : ℚ)/2) (fun _ : Fin 2 => (1 : ℚ))
      (1/2) hp hsum ha h1 h2⟩

/-- Claim C2: whenever `sequential_p_values` succeeds, the p-value at index
`t` equals exactly `min(1, 1/LR_t)` where `LR_t = exp(ℓ_t)` is the
likelihood ratio evaluated at the cumulative counts of the first `t+1`
observation rows. -/
theorem c2_p_value_formula (input : ObsInput) (p0 : List ℚ) (tune : ℚ)
    (ps : List ℚ) (h : sequential_p_values input p0 tune = Except.ok ps)
    (t : ℕ) (ht : t < ps.length) :
    ps[t]? = some (min 1 (1 / likelihoodRatio tune p0
      (accumCounts (List.replicate p0.length 0)
        (((toRows p0.length input).map toCounts).take (t + 1))))) := by
  unfold sequential_p_values runSSRM at h
  split at h
  · split at h
    · simp only [Except.map, Except.ok.injEq] at h
      subst h
      set lr := likelihoodRatio tune p0
      set rows := (toRows p0.length input).map toCounts with hrows
      have htr : t < rows.length := by
        rw [List.length_map] at ht
        rwa [runStates_length] at ht
      rw [List.getElem?_map, runStates_get? lr rows _ t htr]
      have hne : rows.take (t + 1) ≠ [] := by
        apply List.ne_nil_of_length_pos
        rw [List.length_take]
        omega
      simp only [Option.map_some']
      rw [show (pValue (List.foldl (consume lr)
          (initState p0.length lr) (rows.take (t + 1))).lrVal) =
          min 1 (1 / (List.foldl (consume lr)
            (initState p0.length lr) (rows.take (t + 1))).lrVal) from rfl,
        foldl_consume_lrVal lr _ _ hne]
      rfl
    · exact absurd h (by simp [Except.map])
  · exact absurd h (by simp [Except.map])

/-- Witness for C2 at a concrete run: two one-hot observations under the
uniform null on two variations give p-values `[1, 1]`, and the entry at
index 0 matches the `min(1, 1/LR)` formula. -/
theorem c2_p_value_formula_witness :
    (sequential_p_values (ObsInput.matrix [[1, 0], [0, 1]])
        [(1 : ℚ)/2, 1/2] 1 = Except.ok [1, 1] ∧
      (0 : ℕ) < ([(1 : ℚ), 1]).length) ∧
    ([(1 : ℚ), 1][0]? = some (min 1 (1 / likelihoodRatio 1 [(1 : ℚ)/2, 1/2]
      (accumCounts (List.replicate ([(1 : ℚ)/2, 1/2]).length 0)
        (((toRows ([(1 : ℚ)/2, 1/2]).length
          (ObsInput.matrix [[1, 0], [0, 1]])).map toCounts).take (0 + 1)))))) := by
  have hrun : sequential_p_values (ObsInput.matrix [[1, 0], [0, 1]])
      [(1 : ℚ)/2, 1/2] 1 = Except.ok [1, 1] := by
    norm_num [sequential_p_values, runSSRM, validP0, validRow, toRows,
      toCounts, runStates, consume, initState, likelihoodRatio, rising,
      pValue, accumCounts, tol, List.all, Except.map, List.replicate,
      List.zipWith, List.map, List.prod_cons, List.prod_nil]
  have hlt : (0 : ℕ) < ([(1 : ℚ), 1]).length := by decide
  exact ⟨⟨hrun, hlt⟩, c2_p_value_formula (ObsInput.matrix [[1, 0], [0, 1]])
    [(1 : ℚ)/2, 1/2] 1 [1, 1] hrun 0 hlt⟩

/-- Claim C3: whenever `sequential_posterior_probabilities` succeeds with
prior null probability `pi0`, the entry at index `t` equals exactly
`(1-pi0)·LR_t / ((1-pi0)·LR_t + pi0)` with `LR_t = exp(ℓ_t)` evaluated at
the cumulative counts of the first `t+1` rows; and omitting the prior uses
the default `pi0 = 1/2`. -/
theorem c3_posterior_formula (input : ObsInput) (p0 : List ℚ)
    (tune pi0 : ℚ) (qs : List ℚ) (_hpi0 : 0 < pi0) (_hpi1 : pi0 < 1)
    (h : sequential_posterior_probabilities input p0 tune pi0 = Except.ok qs)
    (t : ℕ) (ht : t < qs.length) :
    sequential_posterior_probabilities input p0 tune =
      sequential_posterior_probabilities input p0 tune (1/2) ∧
    qs[t]? = some ((1 - pi0) * likelihoodRatio tune p0
        (accumCounts (List.replicate p0.length 0)
          (((toRows p0.length input).map toCounts).take (t + 1))) /
      ((1 - pi0) * likelihoodRatio tune p0
        (accumCounts (List.replicate p0.length 0)
          (((toRows p0.length input).map toCounts).take (t + 1))) + pi0)) := by
  refine ⟨rfl, ?_⟩
  unfold sequential_posterior_probabilities runSSRM at h
  split at h
  · split at h
    · simp only [Except.map, Except.ok.injEq] at h
      subst h
      set lr := likelihoodRatio tune p0
      set rows := (toRows p0.length input).map toCounts with hrows
      have htr : t < rows.length := by
        rw [List.length_map] at ht
        rwa [runStates_length] at ht
      rw [List.getElem?_map, runStates_get? lr rows _ t htr]
      have hne : rows.take (t + 1) ≠ [] := by
        apply List.ne_nil_of_length_pos
        rw [List.length_take]
        omega
      simp only [Option.map_some']
      rw [show (posterior pi0 (List.foldl (consume lr)
          (initState p0.length lr) (rows.take (t + 1))).lrVal) =
          (1 - pi0) * (List.foldl (consume lr)
            (initState p0.length lr) (rows.take (t + 1))).lrVal /
          ((1 - pi0) * (List.foldl (consume lr)
            (initState p0.length lr) (rows.take (t + 1))).lrVal + pi0)
          from rfl,
        foldl_consume_lrVal lr _ _ hne]
      rfl
    · exact absurd h (by simp [Except.map])
  · exact absurd h (by simp [Except.map])

/-- Witness for C3 at a concrete run: the same two-observation run has
posterior probabilities `[1/2, 2/5]` with the default prior `pi0 = 1/2`,
and the entry at index 1 matches the posterior formula. -/
theorem c3_posterior_formula_witness :
    ((0 : ℚ) < 1/2 ∧ (1 : ℚ)/2 < 1 ∧
      sequential_posterior_probabilities (ObsInput.matrix [[1, 0], [0, 1]])
        [(1 : ℚ)/2, 1/2] 1 (1/2) = Except.ok [1/2, 2/5] ∧
      (1 : ℕ) < ([(1 : ℚ)/2, 2/5]).length) ∧
    (sequential_posterior_probabilities (ObsInput.matrix [[1, 0], [0, 1]])
        [(1 : ℚ)/2, 1/2] 1 =
      sequential_posterior_probabilities (ObsInput.matrix [[1, 0], [0, 1]])
        [(1 : ℚ)/2, 1/2] 1 (1/2) ∧
    [(1 : ℚ)/2, 2/5][1]? = some ((1 - 1/2) * likelihoodRatio 1 [(1 : ℚ)/2, 1/2]
        (accumCounts (List.replicate ([(1 : ℚ)/2, 1/2]).length 0)
          (((toRows ([(1 : ℚ)/2, 1/2]).length
            (ObsInput.matrix [[1, 0], [0, 1]])).map toCounts).take (1 + 1))) /
      ((1 - 1/2) * likelihoodRatio 1 [(1 : ℚ)/2, 1/2]
        (accumCounts (List.replicate ([(1 : ℚ)/2, 1/2]).length 0)
          (((toRows ([(1 : ℚ)/2, 1/2]).length
            (ObsInput.matrix [[1, 0], [0, 1]])).map toCounts).take (1 + 1))) + 1/2))) := by
  have h1 : (0 : ℚ) < 1/2 := by norm_num
  have h2 : (1 : ℚ)/2 < 1 := by norm_num
  have hrun : sequential_posterior_probabilities
      (ObsInput.matrix [[1, 0], [0, 1]]) [(1 : ℚ)/2, 1/2] 1 (1/2) =
      Except.ok [1/2, 2/5] := by
    norm_num [sequential_posterior_probabilities, runSSRM, validP0, validRow,
      toRows, toCounts, runStates, consume, initState, likelihoodRatio,
      rising, posterior, accumCounts, tol, List.all, Except.map,
      List.replicate, List.zipWith, List.map, List.prod_cons, List.prod_nil]
  have hlt : (1 : ℕ) < ([(1 : ℚ)/2, 2/5]).length := by decide
  exact ⟨⟨h1, h2, hrun, hlt⟩,
    c3_posterior_formula (ObsInput.matrix [[1, 0], [0, 1]])
      [(1 : ℚ)/2, 1/2] 1 (1/2) [1/2, 2/5] h1 h2 hrun 1 hlt⟩

/-- Claim C4: bounded outputs — whenever the entry points succeed (with a
positive tuning parameter and a prior null probability in `(0,1)`), every
returned p-value and every returned posterior probability lies in `[0,1]`. -/
theorem c4_bounded_outputs (input : ObsInput) (p0 : List ℚ)
    (tune pi0 : ℚ) (ps qs : List ℚ) (htune : 0 < tune)
    (hpi0 : 0 < pi0) (hpi1 : pi0 < 1)
    (hp : sequential_p_values input p0 tune = Except.ok ps)
    (hq : sequential_posterior_probabilities input p0 tune pi0 = Except.ok qs) :
    (∀ q ∈ ps, 0 ≤ q ∧ q ≤ 1) ∧ (∀ q ∈ qs, 0 ≤ q ∧ q ≤ 1) := by
  unfold sequential_p_values runSSRM at hp
  unfold sequential_posterior_probabilities runSSRM at hq
  by_cases hv : validP0 p0 = true
  · by_cases hr : (toRows p0.length input).all (validRow p0.length) = true
    · rw [if_pos hv, if_pos hr] at hp hq
      simp only [Except.map, Except.ok.injEq] at hp hq
      subst hp
      subst hq
      obtain ⟨hlen2, hentries, _⟩ := validP0_props hv
      have hd : 0 < p0.length := by omega
      have hqpos : ∀ q ∈ p0, 0 < q := fun q hmem => (hentries q hmem).1
      have hlr : ∀ st ∈ runStates (likelihoodRatio tune p0)
          (initState p0.length (likelihoodRatio tune p0))
          ((toRows p0.length input).map toCounts), 0 < st.lrVal := by
        intro st hst
        obtain ⟨t, ht, rfl⟩ := mem_runStates _ _ _ _ hst
        have hne : (((toRows p0.length input).map toCounts).take (t + 1)) ≠ [] := by
          apply List.ne_nil_of_length_pos
          rw [List.length_take]
          omega
        rw [foldl_consume_lrVal _ _ _ hne]
        exact likelihoodRatio_pos _ htune hqpos hd
      constructor
      · intro q hmem
        obtain ⟨st, hst, rfl⟩ := List.mem_map.mp hmem
        exact pValue_bounds (le_of_lt (hlr st hst))
      · intro q hmem
        obtain ⟨st, hst, rfl⟩ := List.mem_map.mp hmem
        exact posterior_bounds hpi0 hpi1 (le_of_lt (hlr st hst))
    · rw [if_pos hv, if_neg hr] at hp
      exact absurd hp (by simp [Except.map])
  · rw [if_neg hv] at hp
    exact absurd hp (by simp [Except.map])

/-- Witness for C4 at a concrete run: the two-observation run under the
uniform null has all p-values and posterior probabilities in `[0,1]`. -/
theorem c4_bounded_outputs_witness :
    ((0 : ℚ) < 1 ∧ (0 : ℚ) < 1/2 ∧ (1 : ℚ)/2 < 1 ∧
      sequential_p_values (ObsInput.matrix [[1, 0], [0, 1]])
        [(1 : ℚ)/2, 1/2] 1 = Except.ok [1, 1] ∧
      sequential_posterior_probabilities (ObsInput.matrix [[1, 0], [0, 1]])
        [(1 : ℚ)/2, 1/2] 1 (1/2) = Except.ok [1/2, 2/5]) ∧
    ((∀ q ∈ [(1 : ℚ), 1], 0 ≤ q ∧ q ≤ 1) ∧
      (∀ q ∈ [(1 : ℚ)/2, 2/5], 0 ≤ q ∧ q ≤ 1)) := by
  have h1 : (0 : ℚ) < 1 := by norm_num
  have h2 : (0 : ℚ) < 1/2 := by norm_num
  have h3 : (1 : ℚ)/2 < 1 := by norm_num
  have hrun : sequential_p_values (ObsInput.matrix [[1, 0], [0, 1]])
      [(1 : ℚ)/2, 1/2] 1 = Except.ok [1, 1] := by
    norm_num [sequential_p_values, runSSRM, validP0, validRow, toRows,
      toCounts, runStates, consume, initState, likelihoodRatio, rising,
      pValue, accumCounts, tol, List.all, Except.map, List.replicate,
      List.zipWith, List.map, List.prod_cons, List.prod_nil]
  have hrun2 : sequential_posterior_probabilities
      (ObsInput.matrix [[1, 0], [0, 1]]) [(1 : ℚ)/2, 1/2] 1 (1/2) =
      Except.ok [1/2, 2/5] := by
    norm_num [sequential_posterior_probabilities, runSSRM, validP0, validRow,
      toRows, toCounts, runStates, consume, initState, likelihoodRatio,
      rising, posterior, accumCounts, tol, List.all, Except.map,
      List.replicate, List.zipWith, List.map, List.prod_cons, List.prod_nil]
  exact ⟨⟨h1, h2, h3, hrun, hrun2⟩,
    c4_bounded_outputs (ObsInput.matrix [[1, 0], [0, 1]]) [(1 : ℚ)/2, 1/2]
      1 (1/2) [1, 1] [1/2, 2/5] h1 h2 h3 hrun hrun2⟩

/-- Claim C5: length alignment — whenever the entry points succeed, each
returns one output per observation row, in observation order (index `t`
reflects the state after the first `t+1` observations; that per-index
correspondence is the content of C2/C3, the lengths are proved here). -/
theorem c5_length_alignment (input : ObsInput) (p0 : List ℚ)
    (tune pi0 : ℚ) (ps qs : List ℚ)
    (hp : sequential_p_values input p0 tune = Except.ok ps)
    (hq : sequential_posterior_probabilities input p0 tune pi0 = Except.ok qs) :
    ps.length = (toRows p0.length input).length ∧
    qs.length = (toRows p0.length input).length := by
  unfold sequential_p_values runSSRM at hp
  unfold sequential_posterior_probabilities runSSRM at hq
  by_cases hv : validP0 p0 = true
  · by_cases hr : (toRows p0.length input).all (validRow p0.length) = true
    · rw [if_pos hv, if_pos hr] at hp hq
      simp only [Except.map, Except.ok.injEq] at hp hq
      subst hp
      subst hq
      constructor
      · rw [List.length_map, runStates_length, List.length_map]
      · rw [List.length_map, runStates_length, List.length_map]
    · rw [if_pos hv, if_neg hr] at hp
      exact absurd hp (by simp [Except.map])
  · rw [if_neg hv] at hp
    exact absurd hp (by simp [Except.map])

/-- Witness for C5 at a concrete run: two observation rows produce exactly
two p-values and two posterior probabilities. -/
theorem c5_length_alignment_witness :
    (sequential_p_values (ObsInput.matrix [[1, 0], [0, 1]])
        [(1 : ℚ)/2, 1/2] 1 = Except.ok [1, 1] ∧
      sequential_posterior_probabilities (ObsInput.matrix [[1, 0], [0, 1]])
        [(1 : ℚ)/2, 1/2] 1 (1/2) = Except.ok [1/2, 2/5]) ∧
    (([(1 : ℚ), 1]).length =
        (toRows ([(1 : ℚ)/2, 1/2]).length
          (ObsInput.matrix [[1, 0], [0, 1]])).length ∧
      ([(1 : ℚ)/2, 2/5]).length =
        (toRows ([(1 : ℚ)/2, 1/2]).length
          (ObsInput.matrix [[1, 0], [0, 1]])).length) := by
  have hrun : sequential_p_values (ObsInput.matrix [[1, 0], [0, 1]])
      [(1 : ℚ)/2, 1/2] 1 = Except.ok [1, 1] := by
    norm_num [sequential_p_values, runSSRM, validP0, validRow, toRows,
      toCounts, runStates, consume, initState, likelihoodRatio, rising,
      pValue, accumCounts, tol, List.all, Except.map, List.replicate,
      List.zipWith, List.map, List.prod_cons, List.prod_nil]
  have hrun2 : sequential_posterior_probabilities
      (ObsInput.matrix [[1, 0], [0, 1]]) [(1 : ℚ)/2, 1/2] 1 (1/2) =
      Except.ok [1/2, 2/5] := by
    norm_num [sequential_posterior_probabilities, runSSRM, validP0, validRow,
      toRows, toCounts, runStates, consume, initState, likelihoodRatio,
      rising, posterior, accumCounts, tol, List.all, Except.map,
      List.replicate, List.zipWith, List.map, List.prod_cons, List.prod_nil]
  exact ⟨⟨hrun, hrun2⟩,
    c5_length_alignment (ObsInput.matrix [[1, 0], [0, 1]]) [(1 : ℚ)/2, 1/2]
      1 (1/2) [1, 1] [1/2, 2/5] hrun hrun2⟩

/-- Claim C6: incremental consistency — for every split point `k`, folding
the accumulator over the first `k` rows and then over the rest yields
exactly the same final `TestState` (cumulative counts, time index, running
likelihood ratio) as folding over all rows at once, and the recorded
per-step state sequence likewise splits; `consume` is a fold whose result
does not depend on batching granularity. -/
theorem c6_incremental_consistency (lr : List ℕ → ℚ) (s : TestState)
    (rows : List (List ℕ)) (k : ℕ) :
    List.foldl (consume lr) s rows =
      List.foldl (consume lr)
        (List.foldl (consume lr) s (rows.take k)) (rows.drop k) ∧
    runStates lr s rows =
      runStates lr s (rows.take k) ++
        runStates lr (List.foldl (consume lr) s (rows.take k)) (rows.drop k) := by
  constructor
  · conv_lhs => rw [← List.take_append_drop k rows]
    rw [List.foldl_append]
  · conv_lhs => rw [← List.take_append_drop k rows]
    rw [runStates_append]

theorem validP0_eq_false_iff {p0 : List ℚ} :
    validP0 p0 = false ↔
      p0.length < 2 ∨ (∃ q ∈ p0, q ≤ 0 ∨ 1 ≤ q) ∨ tol < |p0.sum - 1| := by
  rw [← Bool.not_eq_true]
  simp only [validP0, Bool.and_eq_true, List.all_eq_true, decide_eq_true_eq]
  constructor
  · intro h
    by_cases h1 : 2 ≤ p0.length
    · by_cases h3 : |p0.sum - 1| ≤ tol
      · refine Or.inr (Or.inl ?_)
        by_contra hq
        push_neg at hq
        exact h ⟨⟨h1, fun q hmem => hq q hmem⟩, h3⟩
      · exact Or.inr (Or.inr (not_le.mp h3))
    · exact Or.inl (not_le.mp h1)
  · intro h hcon
    obtain ⟨⟨hlen, hmem⟩, hsum⟩ := hcon
    rcases h with h | ⟨q, hq, hbad⟩ | h
    · omega
    · rcases hbad with h1 | h1
      · linarith [(hmem q hq).1]
      · linarith [(hmem q hq).2]
    · linarith

theorem all_validRow_eq_false {d : ℕ} {rows : List (List ℤ)}
    (h : ∃ r ∈ rows, r.length ≠ d ∨ ∃ v ∈ r, v < 0) :
    rows.all (validRow d) = false := by
  rw [← Bool.not_eq_true, List.all_eq_true]
  intro hall
  obtain ⟨r, hr, hbad⟩ := h
  obtain ⟨hlen, hnn⟩ := validRow_iff.mp (hall r hr)
  rcases hbad with hbad | ⟨v, hv, hneg⟩
  · exact hbad hlen
  · exact absurd (hnn v hv) (by omega)

/-- Claim C7: error handling and atomicity — a malformed `p0` (too short,
an out-of-range entry, or a sum off by more than the tolerance) makes both
entry points fail with `ConfigurationError`; with a valid `p0`, a row of
the wrong width or with a negative count makes them fail with
`DataShapeError`; and in every case each entry point returns either a full
length-aligned output sequence or an error — never a partial output. -/
theorem c7_error_handling :
    (∀ (input : ObsInput) (p0 : List ℚ) (tune pi0 : ℚ),
      (p0.length < 2 ∨ (∃ q ∈ p0, q ≤ 0 ∨ 1 ≤ q) ∨ tol < |p0.sum - 1|) →
      sequential_p_values input p0 tune =
        Except.error SSRMError.configurationError ∧
      sequential_posterior_probabilities input p0 tune pi0 =
        Except.error SSRMError.configurationError) ∧
    (∀ (input : ObsInput) (p0 : List ℚ) (tune pi0 : ℚ),
      validP0 p0 = true →
      (∃ r ∈ toRows p0.length input, r.length ≠ p0.length ∨ ∃ v ∈ r, v < 0) →
      sequential_p_values input p0 tune =
        Except.error SSRMError.dataShapeError ∧
      sequential_posterior_probabilities input p0 tune pi0 =
        Except.error SSRMError.dataShapeError) ∧
    (∀ (input : ObsInput) (p0 : List ℚ) (tune pi0 : ℚ),
      ((∃ ps, sequential_p_values input p0 tune = Except.ok ps ∧
          ps.length = (toRows p0.length input).length) ∨
        (∃ e, sequential_p_values input p0 tune = Except.error e)) ∧
      ((∃ qs, sequential_posterior_probabilities input p0 tune pi0 =
            Except.ok qs ∧
          qs.length = (toRows p0.length input).length) ∨
        (∃ e, sequential_posterior_probabilities input p0 tune pi0 =
          Except.error e))) := by
  refine ⟨?_, ?_, ?_⟩
  · intro input p0 tune pi0 h
    have hv : validP0 p0 = false := validP0_eq_false_iff.mpr h
    constructor
    · simp [sequential_p_values, runSSRM, hv, Except.map]
    · simp [sequential_posterior_probabilities, runSSRM, hv, Except.map]
  · intro input p0 tune pi0 hv h
    have hr : (toRows p0.length input).all (validRow p0.length) = false :=
      all_validRow_eq_false h
    constructor
    · simp [sequential_p_values, runSSRM, hv, hr, Except.map]
    · simp [sequential_posterior_probabilities, runSSRM, hv, hr, Except.map]
  · intro input p0 tune pi0
    by_cases hv : validP0 p0 = true
    · by_cases hr : (toRows p0.length input).all (validRow p0.length) = true
      · constructor
        · refine Or.inl ⟨(runStates (likelihoodRatio tune p0)
            (initState p0.length (likelihoodRatio tune p0))
            ((toRows p0.length input).map toCounts)).map
              (fun st => pValue st.lrVal), ?_, ?_⟩
          · simp [sequential_p_values, runSSRM, hv, hr, Except.map]
          · rw [List.length_map, runStates_length, List.length_map]
        · refine Or.inl ⟨(runStates (likelihoodRatio tune p0)
            (initState p0.length (likelihoodRatio tune p0))
            ((toRows p0.length input).map toCounts)).map
              (fun st => posterior pi0 st.lrVal), ?_, ?_⟩
          · simp [sequential_posterior_probabilities, runSSRM, hv, hr,
              Except.map]
          · rw [List.length_map, runStates_length, List.length_map]
      · have hr' : (toRows p0.length input).all (validRow p0.length) = false :=
          Bool.eq_false_iff.mpr hr
        constructor
        · exact Or.inr ⟨SSRMError.dataShapeError,
            by simp [sequential_p_values, runSSRM, hv, hr', Except.map]⟩
        · exact Or.inr ⟨SSRMError.dataShapeError,
            by simp [sequential_posterior_probabilities, runSSRM, hv, hr',
              Except.map]⟩
    · have hv' : validP0 p0 = false := Bool.eq_false_iff.mpr hv
      constructor
      · exact Or.inr ⟨SSRMError.configurationError,
          by simp [sequential_p_values, runSSRM, hv', Except.map]⟩
      · exact Or.inr ⟨SSRMError.configurationError,
          by simp [sequential_posterior_probabilities, runSSRM, hv',
            Except.map]⟩

/-- Witness for C7: the degenerate `p0 = [1/2, 3/5]` (sum 11/10) makes both
entry points fail with `ConfigurationError` on any input. -/
theorem c7_error_handling_witness :
    (([(1 : ℚ)/2, 3/5]).length < 2 ∨
      (∃ q ∈ [(1 : ℚ)/2, 3/5], q ≤ 0 ∨ 1 ≤ q) ∨
      tol < |([(1 : ℚ)/2, 3/5]).sum - 1|) ∧
    (sequential_p_values (ObsInput.matrix [[1, 0]]) [(1 : ℚ)/2, 3/5] 1 =
        Except.error SSRMError.configurationError ∧
      sequential_posterior_probabilities (ObsInput.matrix [[1, 0]])
          [(1 : ℚ)/2, 3/5] 1 (1/2) =
        Except.error SSRMError.configurationError) := by
  have h : ([(1 : ℚ)/2, 3/5]).length < 2 ∨
      (∃ q ∈ [(1 : ℚ)/2, 3/5], q ≤ 0 ∨ 1 ≤ q) ∨
      tol < |([(1 : ℚ)/2, 3/5]).sum - 1| := by
    refine Or.inr (Or.inr ?_)
    norm_num [tol, abs_of_pos]
  exact ⟨h, c7_error_handling.1 (ObsInput.matrix [[1, 0]])
    [(1 : ℚ)/2, 3/5] 1 (1/2) h⟩

/-- Claim C8: determinism and purity — the entry points are pure functions
of their arguments: two invocations with identical observations, identical
`p0`, and identical tuning parameters return identical sequences; the model
consumes no randomness and carries no state between calls. -/
theorem c8_determinism (i i' : ObsInput) (p0 p0' : List ℚ)
    (tune tune' pi0 pi0' : ℚ) (h1 : i = i') (h2 : p0 = p0')
    (h3 : tune = tune') (h4 : pi0 = pi0') :
    sequential_p_values i p0 tune = sequential_p_values i' p0' tune' ∧
    sequential_posterior_probabilities i p0 tune pi0 =
      sequential_posterior_probabilities i' p0' tune' pi0' := by
  subst h1
  subst h2
  subst h3
  subst h4
  exact ⟨rfl, rfl⟩

/-- Witness for C8 at concrete identical invocations. -/
theorem c8_determinism_witness :
    (ObsInput.matrix [[1, 0]] = ObsInput.matrix [[1, 0]] ∧
      [(1 : ℚ)/2, 1/2] = [(1 : ℚ)/2, 1/2] ∧ (1 : ℚ) = 1 ∧
      (1 : ℚ)/2 = 1/2) ∧
    (sequential_p_values (ObsInput.matrix [[1, 0]]) [(1 : ℚ)/2, 1/2] 1 =
        sequential_p_values (ObsInput.matrix [[1, 0]]) [(1 : ℚ)/2, 1/2] 1 ∧
      sequential_posterior_probabilities (ObsInput.matrix [[1, 0]])
          [(1 : ℚ)/2, 1/2] 1 (1/2) =
        sequential_posterior_probabilities (ObsInput.matrix [[1, 0]])
          [(1 : ℚ)/2, 1/2] 1 (1/2)) :=
  ⟨⟨rfl, rfl, rfl, rfl⟩,
    c8_determinism (ObsInput.matrix [[1, 0]]) (ObsInput.matrix [[1, 0]])
      [(1 : ℚ)/2, 1/2] [(1 : ℚ)/2, 1/2] 1 1 (1/2) (1/2) rfl rfl rfl rfl⟩

/-- Claim C9: input contract — a 1-D sequence of category indices is
processed exactly as the matrix of its one-hot rows (same output sequence
for both representations of the same data, for both entry points), and any
matrix of rows of the right width with nonnegative entries — row totals
free to differ between rows — is accepted and produces one output per
row. -/
theorem c9_input_contract :
    (∀ (idxs : List ℕ) (p0 : List ℚ) (tune pi0 : ℚ),
      sequential_p_values (ObsInput.flat idxs) p0 tune =
        sequential_p_values
          (ObsInput.matrix (idxs.map (oneHot p0.length))) p0 tune ∧
      sequential_posterior_probabilities (ObsInput.flat idxs) p0 tune pi0 =
        sequential_posterior_probabilities
          (ObsInput.matrix (idxs.map (oneHot p0.length))) p0 tune pi0) ∧
    (∀ (rows : List (List ℤ)) (p0 : List ℚ) (tune : ℚ),
      validP0 p0 = true →
      (∀ r ∈ rows, r.length = p0.length ∧ ∀ v ∈ r, 0 ≤ v) →
      ∃ ps, sequential_p_values (ObsInput.matrix rows) p0 tune =
          Except.ok ps ∧ ps.length = rows.length) := by
  constructor
  · intro idxs p0 tune pi0
    exact ⟨rfl, rfl⟩
  · intro rows p0 tune hv hrows
    have hr : (toRows p0.length (ObsInput.matrix rows)).all
        (validRow p0.length) = true := by
      rw [List.all_eq_true]
      intro r hrmem
      exact validRow_iff.mpr (hrows r hrmem)
    refine ⟨(runStates (likelihoodRatio tune p0)
      (initState p0.length (likelihoodRatio tune p0))
      ((toRows p0.length (ObsInput.matrix rows)).map toCounts)).map
        (fun st => pValue st.lrVal), ?_, ?_⟩
    · simp [sequential_p_values, runSSRM, hv, hr, Except.map]
    · rw [List.length_map, runStates_length, List.length_map]
      rfl

/-- Witness for C9: a single aggregated row `[2,3]` (row total 5, not a
one-hot draw) under the uniform null is accepted and yields one p-value. -/
theorem c9_input_contract_witness :
    (validP0 [(1 : ℚ)/2, 1/2] = true ∧
      (∀ r ∈ [([2, 3] : List ℤ)], r.length = ([(1 : ℚ)/2, 1/2]).length ∧
        ∀ v ∈ r, 0 ≤ v)) ∧
    (∃ ps, sequential_p_values (ObsInput.matrix [[2, 3]])
        [(1 : ℚ)/2, 1/2] 1 = Except.ok ps ∧
      ps.length = ([([2, 3] : List ℤ)]).length) := by
  have hv : validP0 [(1 : ℚ)/2, 1/2] = true := by
    norm_num [validP0, tol]
  have hrows : ∀ r ∈ [([2, 3] : List ℤ)],
      r.length = ([(1 : ℚ)/2, 1/2]).length ∧ ∀ v ∈ r, 0 ≤ v := by
    intro r hr
    simp only [List.mem_singleton] at hr
    subst hr
    exact ⟨rfl, by decide⟩
  exact ⟨⟨hv, hrows⟩,
    c9_input_contract.2 [[2, 3]] [(1 : ℚ)/2, 1/2] 1 hv hrows⟩

/-- Claim C10: the notebook reports the rejection time as
`len([p for p in pvals if p > 0.05])` (`sig_reached`).  This equals the
first index `t` with `p_t ≤ 0.05` for every sequence that never rises back
above 0.05 after first dropping to it, and — since p-value sequences are
not pointwise monotone — there is a p-value sequence in `[0,1]^T` on which
the reported time differs from the first crossing time. -/
theorem c10_notebook_rejection_time :
    (∀ pvals : List ℚ,
      (∀ j, j < pvals.length → ∀ i, i ≤ j →
        pvals.getD i 1 ≤ 1/20 → pvals.getD j 1 ≤ 1/20) →
      sig_reached pvals = firstCrossing pvals) ∧
    (∃ pvals : List ℚ, (∀ p ∈ pvals, 0 ≤ p ∧ p ≤ 1) ∧
      sig_reached pvals ≠ firstCrossing pvals) := by
  constructor
  · intro pvals
    induction pvals with
    | nil => intro _; rfl
    | cons p rest ih =>
        intro hmono
        by_cases hp : (1 : ℚ)/20 < p
        · have hrest : ∀ j, j < rest.length → ∀ i, i ≤ j →
              rest.getD i 1 ≤ 1/20 → rest.getD j 1 ≤ 1/20 := by
            intro j hj i hij hle
            have := hmono (j + 1) (by simpa using Nat.succ_lt_succ hj)
              (i + 1) (by omega)
            simpa [List.getD_cons_succ] using this hle
          simp only [sig_reached, firstCrossing, List.filter_cons,
            List.takeWhile_cons, decide_eq_true_eq, if_pos hp,
            List.length_cons]
          have := ih hrest
          simp only [sig_reached, firstCrossing] at this
          omega
        · have h0 : (p :: rest).getD 0 1 ≤ 1/20 := by
            simpa using le_of_not_lt hp
          have hall : ∀ x ∈ p :: rest, ¬ ((1 : ℚ)/20 < x) := by
            intro x hx
            obtain ⟨k, hk, hget⟩ := List.mem_iff_getElem.mp hx
            have hle := hmono k hk 0 (Nat.zero_le k) h0
            rw [List.getD_eq_getElem _ _ hk, hget] at hle
            exact not_lt.mpr hle
          have hfilter :
              (p :: rest).filter (fun q => decide ((1 : ℚ)/20 < q)) = [] := by
            rw [List.filter_eq_nil_iff]
            intro a ha
            simpa using hall a ha
          simp only [sig_reached, firstCrossing, hfilter,
            List.takeWhile_cons, decide_eq_true_eq, if_neg hp,
            List.length_nil]
  · refine ⟨[1/25, 4/5, 1/25], ?_, ?_⟩
    · intro q hq
      rcases List.mem_cons.mp hq with rfl | hq
      · constructor <;> norm_num
      rcases List.mem_cons.mp hq with rfl | hq
      · constructor <;> norm_num
      rcases List.mem_cons.mp hq with rfl | hq
      · constructor <;> norm_num
      · exact absurd hq (by simp)
    · show ((([(1 : ℚ)/25, 4/5, 1/25]).filter
          (fun p => decide ((1 : ℚ)/20 < p))).length ≠
        (([(1 : ℚ)/25, 4/5, 1/25]).takeWhile
          (fun p => decide ((1 : ℚ)/20 < p))).length)
      norm_num [List.filter_cons, List.filter_nil, List.takeWhile_cons]

/-- Witness for C10 at a concrete monotone-below sequence `[1, 1/25]`: the
reported count and the first crossing index agree (both equal 1). -/
theorem c10_notebook_rejection_time_witness :
    (∀ j, j < ([(1 : ℚ), 1/25]).length → ∀ i, i ≤ j →
      ([(1 : ℚ), 1/25]).getD i 1 ≤ 1/20 → ([(1 : ℚ), 1/25]).getD j 1 ≤ 1/20) ∧
    sig_reached [(1 : ℚ), 1/25] = firstCrossing [(1 : ℚ), 1/25] := by
  have hmono : ∀ j, j < ([(1 : ℚ), 1/25]).length → ∀ i, i ≤ j →
      ([(1 : ℚ), 1/25]).getD i 1 ≤ 1/20 →
      ([(1 : ℚ), 1/25]).getD j 1 ≤ 1/20 := by
    intro j hj i hij hle
    have hj2 : j < 2 := by simpa using hj
    interval_cases j
    · interval_cases i
      · exact hle
    · interval_cases i
      · revert hle
        norm_num [List.getD]
      · exact hle
  exact ⟨hmono, c10_notebook_rejection_time.1 [(1 : ℚ), 1/25] hmono⟩

end SSRM
